import Mathlib

/-!
# Verification of the chipmunk LSM key-value store

A shallow embedding of the storage engine of the `chipmunk` repository
(`src/wal.rs`, `src/memtable.rs`, `src/lsm.rs`) together with proofs and
refutations of the specification's claims about it.

Bytes are modelled as natural numbers and byte strings as `List Nat`;
machine integers (`u64` / `usize`) are modelled as `Nat` with explicit
`% 2 ^ 64` wherever the Rust code truncates to a fixed width.
-/

/-! ## Bytes and fixed-width little-endian integers -/

/-- A byte string (the model of `Vec<u8>` / `bytes::Bytes`). -/
abbrev Bytes := List Nat

/-- Little-endian byte decomposition of `n` into `w` bytes, the model of
`u64::to_le_bytes` / `usize::to_le_bytes` (which truncate to the word width). -/
def toLEBytes (w n : Nat) : Bytes :=
  match w with
  | 0 => []
  | w + 1 => n % 256 :: toLEBytes w (n / 256)

/-- The 8-byte little-endian encoding used by `Wal::append` for length fields. -/
def toLE8 (n : Nat) : Bytes := toLEBytes 8 n

/-- Little-endian reconstruction of a natural number from bytes, the model of
`u64::from_le_bytes` as used by `read_entry`. -/
def fromLEBytes (bs : Bytes) : Nat :=
  match bs with
  | [] => 0
  | b :: rest => b + 256 * fromLEBytes rest

theorem toLEBytes_length (w n : Nat) : (toLEBytes w n).length = w := by
  induction w generalizing n with
  | zero => rfl
  | succ w ih => simp [toLEBytes, ih]

theorem fromLEBytes_toLEBytes (w n : Nat) :
    fromLEBytes (toLEBytes w n) = n % 256 ^ w := by
  induction w generalizing n with
  | zero => simp [toLEBytes, fromLEBytes, Nat.mod_one]
  | succ w ih =>
      simp only [toLEBytes, fromLEBytes, ih]
      rw [Nat.pow_succ', Nat.mod_mul]

theorem fromLEBytes_toLE8 (n : Nat) (h : n < 2 ^ 64) :
    fromLEBytes (toLE8 n) = n := by
  have h256 : (256 : Nat) ^ 8 = 2 ^ 64 := by norm_num
  rw [toLE8, fromLEBytes_toLEBytes, h256, Nat.mod_eq_of_lt h]

/-- `read_exact` into an `n`-byte buffer: succeeds returning the bytes read and
the remaining stream, fails (the reader is exhausted) otherwise. -/
def readN (n : Nat) (bs : Bytes) : Option (Bytes × Bytes) :=
  if n ≤ bs.length then some (bs.take n, bs.drop n) else none

theorem readN_append (bs rest : Bytes) :
    readN bs.length (bs ++ rest) = some (bs, rest) := by
  simp [readN]

theorem readN_length_le {n : Nat} {bs t r : Bytes}
    (h : readN n bs = some (t, r)) : r.length ≤ bs.length := by
  unfold readN at h
  split at h
  · simp only [Option.some.injEq, Prod.mk.injEq] at h
    rw [← h.2]
    simp
  · exact absurd h (by simp)

/-! ## The WAL entry codec (`WalEntry`, `Wal::append` framing, `read_entry`) -/

/-- `WalEntry` from `src/wal.rs`: `Put { key, value }` or `Delete { key }`. -/
inductive WalEntry where
  | put (key value : Bytes)
  | delete (key : Bytes)
deriving DecidableEq

/-- The byte sequence `Wal::append` writes into the in-memory buffer for one
entry, as the sequence of `buffer.write` calls in the source: marker byte
(`0` for put, `1` for delete), 8-byte little-endian key length, key bytes and,
for puts, 8-byte little-endian value length followed by the value bytes. -/
def encodeWalEntry : WalEntry → Bytes
  | .put k v => ((([0] ++ toLE8 k.length) ++ k) ++ toLE8 v.length) ++ v
  | .delete k => ([1] ++ toLE8 k.length) ++ k

/-- The `append_size` arithmetic of `Wal::append`: the sum of the lengths of
the marker, the length fields, the key and (for puts) the value. -/
def walAppendSize : WalEntry → Nat
  | .put k v => 1 + 8 + k.length + 8 + v.length
  | .delete k => 1 + 8 + k.length

/-- The marker-`0` arm of `read_entry`: key length, key, value length, value.
`none` models a panic of `read_exact(..).unwrap()` on a truncated frame. -/
def readPutBody (bs : Bytes) : Option (WalEntry × Bytes) :=
  (readN 8 bs).bind fun (ksB, bs1) =>
    (readN (fromLEBytes ksB) bs1).bind fun (key, bs2) =>
      (readN 8 bs2).bind fun (vsB, bs3) =>
        (readN (fromLEBytes vsB) bs3).bind fun (value, bs4) =>
          some (.put key value, bs4)

/-- The marker-`1` arm of `read_entry`: key length then key. -/
def readDeleteBody (bs : Bytes) : Option (WalEntry × Bytes) :=
  (readN 8 bs).bind fun (ksB, bs1) =>
    (readN (fromLEBytes ksB) bs1).bind fun (key, bs2) =>
      some (.delete key, bs2)

/-- `read_entry` from `src/wal.rs`, after the caller has consumed the marker
byte: dispatches on the marker.  `none` models the function panicking — either
`read_exact(..).unwrap()` on a truncated frame or the `panic!("Invalid
marker")` arm on an unknown marker. -/
def readEntryAfterMarker (marker : Nat) (bs : Bytes) : Option (WalEntry × Bytes) :=
  match marker with
  | 0 => readPutBody bs
  | 1 => readDeleteBody bs
  | _ => none

theorem readEntryAfterMarker_zero (bs : Bytes) :
    readEntryAfterMarker 0 bs = readPutBody bs := rfl

theorem readEntryAfterMarker_one (bs : Bytes) :
    readEntryAfterMarker 1 bs = readDeleteBody bs := rfl

theorem readPutBody_length {bs : Bytes} {e : WalEntry} {r : Bytes}
    (h : readPutBody bs = some (e, r)) : r.length ≤ bs.length := by
  unfold readPutBody at h
  simp only [Option.bind_eq_some] at h
  obtain ⟨⟨ksB, bs1⟩, h1, ⟨key, bs2⟩, h2, ⟨vsB, bs3⟩, h3, ⟨value, bs4⟩, h4, heq⟩ := h
  simp only [Option.some.injEq, Prod.mk.injEq] at heq
  rw [← heq.2]
  exact le_trans (readN_length_le h4) <| le_trans (readN_length_le h3) <|
    le_trans (readN_length_le h2) (readN_length_le h1)

theorem readDeleteBody_length {bs : Bytes} {e : WalEntry} {r : Bytes}
    (h : readDeleteBody bs = some (e, r)) : r.length ≤ bs.length := by
  unfold readDeleteBody at h
  simp only [Option.bind_eq_some] at h
  obtain ⟨⟨ksB, bs1⟩, h1, ⟨key, bs2⟩, h2, heq⟩ := h
  simp only [Option.some.injEq, Prod.mk.injEq] at heq
  rw [← heq.2]
  exact le_trans (readN_length_le h2) (readN_length_le h1)

theorem readEntryAfterMarker_length {m : Nat} {bs : Bytes} {e : WalEntry}
    {r : Bytes} (h : readEntryAfterMarker m bs = some (e, r)) :
    r.length ≤ bs.length := by
  unfold readEntryAfterMarker at h
  split at h
  · exact readPutBody_length h
  · exact readDeleteBody_length h
  · exact absurd h (by simp)

/-- The read loop of `Wal::restore` over one segment, written with an explicit
fuel argument so that it is structurally recursive; each loop iteration
consumes at least the one marker byte, so `bs.length` fuel always suffices
(see `readEntries`). -/
def readEntriesFuel (fuel : Nat) (bs : Bytes) : Option (List WalEntry) :=
  match fuel, bs with
  | _, [] => some []
  | 0, _ :: _ => none
  | fuel + 1, m :: rest =>
    match readEntryAfterMarker m rest with
    | none => none
    | some (e, rest') => (readEntriesFuel fuel rest').map (e :: ·)

theorem readEntriesFuel_irrel (f1 : Nat) :
    ∀ (f2 : Nat) (bs : Bytes), bs.length ≤ f1 → bs.length ≤ f2 →
      readEntriesFuel f1 bs = readEntriesFuel f2 bs := by
  induction f1 with
  | zero =>
      intro f2 bs h1 _
      rw [Nat.le_zero, List.length_eq_zero] at h1
      subst h1
      cases f2 <;> rfl
  | succ f1 ih =>
      intro f2 bs h1 h2
      cases bs with
      | nil => cases f2 <;> rfl
      | cons m rest =>
          cases f2 with
          | zero => exact absurd h2 (by simp)
          | succ f2 =>
              simp only [readEntriesFuel]
              cases h : readEntryAfterMarker m rest with
              | none => rfl
              | some p =>
                  obtain ⟨e, rest'⟩ := p
                  have hlen := readEntryAfterMarker_length h
                  have hr : rest.length ≤ f1 := by
                    simp only [List.length_cons] at h1
                    omega
                  have hr2 : rest.length ≤ f2 := by
                    simp only [List.length_cons] at h2
                    omega
                  exact congrArg (Option.map fun x => e :: x)
                    (ih f2 rest' (le_trans hlen hr) (le_trans hlen hr2))

/-- The per-segment read loop of `Wal::restore`: repeatedly read a marker byte
(stopping cleanly when the stream is exhausted at an entry boundary) and decode
the following frame with `read_entry`.  `none` models a panic inside
`read_entry`; entries are accumulated in order as in the source's `entries`
vector. -/
def readEntries (bs : Bytes) : Option (List WalEntry) :=
  readEntriesFuel bs.length bs

theorem readEntries_nil : readEntries [] = some [] := rfl

theorem readEntries_cons_some {m : Nat} {rest : Bytes} {e : WalEntry}
    {rest' : Bytes} (h : readEntryAfterMarker m rest = some (e, rest')) :
    readEntries (m :: rest) = (readEntries rest').map (e :: ·) := by
  show readEntriesFuel (m :: rest).length (m :: rest) = _
  simp only [List.length_cons, readEntriesFuel, h]
  rw [readEntriesFuel_irrel rest.length rest'.length rest'
    (readEntryAfterMarker_length h) le_rfl]
  rfl

theorem readEntries_cons_none {m : Nat} {rest : Bytes}
    (h : readEntryAfterMarker m rest = none) :
    readEntries (m :: rest) = none := by
  show readEntriesFuel (m :: rest).length (m :: rest) = _
  simp only [List.length_cons, readEntriesFuel, h]

/-- Well-formedness of an entry as it exists in the Rust code: key and value
lengths are `usize` values, hence below `2 ^ 64`. -/
def WalEntry.wf : WalEntry → Prop
  | .put k v => k.length < 2 ^ 64 ∧ v.length < 2 ^ 64
  | .delete k => k.length < 2 ^ 64

instance : DecidablePred WalEntry.wf := by
  intro e
  cases e <;> simp [WalEntry.wf] <;> infer_instance

theorem readN_toLE8 (n : Nat) (rest : Bytes) :
    readN 8 (toLE8 n ++ rest) = some (toLE8 n, rest) := by
  have h8 : (toLE8 n).length = 8 := toLEBytes_length 8 n
  rw [← h8, readN_append]

theorem readPutBody_encode (k v rest : Bytes) (hk : k.length < 2 ^ 64)
    (hv : v.length < 2 ^ 64) :
    readPutBody (toLE8 k.length ++ (k ++ (toLE8 v.length ++ (v ++ rest)))) =
      some (.put k v, rest) := by
  unfold readPutBody
  rw [readN_toLE8]
  simp only [Option.some_bind]
  rw [fromLEBytes_toLE8 _ hk, readN_append]
  simp only [Option.some_bind]
  rw [readN_toLE8]
  simp only [Option.some_bind]
  rw [fromLEBytes_toLE8 _ hv, readN_append]
  simp only [Option.some_bind]

theorem readDeleteBody_encode (k rest : Bytes) (hk : k.length < 2 ^ 64) :
    readDeleteBody (toLE8 k.length ++ (k ++ rest)) = some (.delete k, rest) := by
  unfold readDeleteBody
  rw [readN_toLE8]
  simp only [Option.some_bind]
  rw [fromLEBytes_toLE8 _ hk, readN_append]
  simp only [Option.some_bind]

/-- Concatenated encoding of a list of entries, as they lie in a segment. -/
def encodeWalEntries (es : List WalEntry) : Bytes :=
  (es.map encodeWalEntry).flatten

theorem readEntries_encode_append (es : List WalEntry) (tail : Bytes)
    (hwf : ∀ e ∈ es, e.wf) :
    readEntries (encodeWalEntries es ++ tail) =
      (readEntries tail).map (es ++ ·) := by
  induction es with
  | nil =>
      simp only [encodeWalEntries, List.map_nil, List.flatten_nil, List.nil_append]
      cases h : readEntries tail <;> simp
  | cons e es ih =>
      have he : e.wf := hwf e (by simp)
      have hes : ∀ x ∈ es, x.wf := fun x hx => hwf x (by simp [hx])
      have hsplit : encodeWalEntries (e :: es) ++ tail =
          encodeWalEntry e ++ (encodeWalEntries es ++ tail) := by
        simp [encodeWalEntries]
      rw [hsplit]
      cases e with
      | put k v =>
          obtain ⟨hk, hv⟩ := he
          have hform : encodeWalEntry (.put k v) ++ (encodeWalEntries es ++ tail) =
              0 :: (toLE8 k.length ++ (k ++ (toLE8 v.length ++
                (v ++ (encodeWalEntries es ++ tail))))) := by
            simp [encodeWalEntry]
          rw [hform, readEntries_cons_some
            (by rw [readEntryAfterMarker_zero, readPutBody_encode _ _ _ hk hv]),
            ih hes]
          cases h : readEntries tail <;> simp
      | delete k =>
          have hform : encodeWalEntry (.delete k) ++ (encodeWalEntries es ++ tail) =
              1 :: (toLE8 k.length ++ (k ++ (encodeWalEntries es ++ tail))) := by
            simp [encodeWalEntry]
          rw [hform, readEntries_cons_some
            (by rw [readEntryAfterMarker_one, readDeleteBody_encode _ _ he]),
            ih hes]
          cases h : readEntries tail <;> simp

/-! ## The WAL state machine (`Wal`, `Segment` from `src/wal.rs`)

The log directory is modelled as an association list from segment id to the
byte contents of the file `<id>.wal`.  OS-level I/O errors other than those the
code itself checks for are outside the model. -/

/-- Error kinds from `ChipmunkError` in `src/lib.rs` (the ones reachable in
the modelled operations). -/
inductive ChipmunkErr where
  | segmentOpen
  | segmentFsync
  | segmentDelete
  | walAppend
deriving DecidableEq

/-- The log directory: segment id ↦ contents of `<id>.wal`. -/
abbrev SegFiles := List (Nat × Bytes)

/-- Contents of `<id>.wal`, if the file exists. -/
def fsLookup (fs : SegFiles) (id : Nat) : Option Bytes :=
  match fs with
  | [] => none
  | (i, c) :: rest => if i = id then some c else fsLookup rest id

/-- Append bytes to the (existing) file `<id>.wal`; the model of
`write_all` on the segment's append-only handle. -/
def fsAppend (fs : SegFiles) (id : Nat) (bytes : Bytes) : SegFiles :=
  match fs with
  | [] => []
  | (i, c) :: rest =>
    if i = id then (i, c ++ bytes) :: rest else (i, c) :: fsAppend rest id bytes

/-- `std::fs::remove_file` on `<id>.wal`: fails (`none`) when the file does
not exist, otherwise removes it. -/
def fsRemove (fs : SegFiles) (id : Nat) : Option SegFiles :=
  match fsLookup fs id with
  | none => none
  | some _ => some (fs.filter (fun p => p.1 ≠ id))

/-- `Segment::try_new` from `src/wal.rs`: opens `<id>.wal` with
`OpenOptions::new().create(true).append(true)` — the file is created empty
when absent and opened for appending (contents preserved) when present.  No
header is written.  The `SegmentOpen` error is only reachable through OS-level
I/O failure, which is outside the model, so the result is always `ok`. -/
def tryNewSegment (fs : SegFiles) (id : Nat) : Except ChipmunkErr SegFiles :=
  .ok (match fsLookup fs id with
       | some _ => fs
       | none => fs ++ [(id, [])])

/-- The exclusive-create behaviour the specification claims for
`Segment::open`: fail with `SegmentOpen` whenever `<id>.wal` already exists,
and otherwise create the file starting with the ASCII header `ch1\n`
(bytes `[99, 104, 49, 10]`).  Stated from the spec's words, for comparison
with `tryNewSegment` above. -/
def specTryNewSegment (fs : SegFiles) (id : Nat) : Except ChipmunkErr SegFiles :=
  match fsLookup fs id with
  | some _ => .error .segmentOpen
  | none => .ok (fs ++ [(id, [99, 104, 49, 10])])

/-- The in-memory `Wal` state from `src/wal.rs`, together with the log
directory it writes to. -/
structure WalM where
  files : SegFiles
  activeId : Nat
  currentSize : Nat
  maxSize : Nat
  buffer : Bytes
  bufferSize : Nat
  closedSegments : List Nat
deriving DecidableEq

/-- `Wal::new(id, dir, max_size, buffer_size)` on a directory `fs`. -/
def walNew (fs : SegFiles) (id maxSize bufferSize : Nat) : WalM :=
  { files := match tryNewSegment fs id with
             | .ok fs' => fs'
             | .error _ => fs
    activeId := id
    currentSize := 0
    maxSize := maxSize
    buffer := []
    bufferSize := bufferSize
    closedSegments := [] }

/-- `Wal::maybe_flush_buffer(force)`: when the buffer has reached
`buffer_size`, or unconditionally when forced, write the buffered bytes to the
active segment file and clear the buffer. -/
def maybeFlushBuffer (w : WalM) (force : Bool) : WalM :=
  if w.bufferSize ≤ w.buffer.length ∨ force = true then
    { w with files := fsAppend w.files w.activeId w.buffer, buffer := [] }
  else w

/-- `Wal::append(entry)`: encode the entry into the in-memory buffer, add the
computed `append_size` to `current_size`, run the (non-forced) buffer-flush
policy, and return `append_size`. -/
def walAppend (w : WalM) (e : WalEntry) : Nat × WalM :=
  let w := { w with buffer := w.buffer ++ encodeWalEntry e,
                    currentSize := w.currentSize + walAppendSize e }
  (walAppendSize e, maybeFlushBuffer w false)

/-- `Wal::rotate()`: fsync the active segment (`Segment::flush`, a no-op on
the modelled file contents), push the active id onto `closed_segments`, zero
`current_size`, and open segment `active + 1`.  Note: the in-memory buffer is
*not* written out. -/
def walRotate (w : WalM) : WalM :=
  { w with closedSegments := w.closedSegments ++ [w.activeId]
           currentSize := 0
           activeId := w.activeId + 1
           files := match tryNewSegment w.files (w.activeId + 1) with
                    | .ok fs' => fs'
                    | .error _ => w.files }

/-- `Wal::size()`. -/
def walSize (w : WalM) : Nat := w.currentSize

/-- The loop body of `Wal::remove_closed_segments` (and of
`Lsm::remove_closed_segments`, which duplicates it): delete `<id>.wal` for
each id in order, stopping with `SegmentDelete` at the first failure; files
already removed stay removed. -/
def removeSegLoop (fs : SegFiles) (ids : List Nat) :
    SegFiles × Except ChipmunkErr Nat :=
  match ids with
  | [] => (fs, .ok 0)
  | s :: rest =>
    match fsRemove fs s with
    | none => (fs, .error .segmentDelete)
    | some fs' =>
      match removeSegLoop fs' rest with
      | (fs'', .ok n) => (fs'', .ok (n + 1))
      | (fs'', .error e) => (fs'', .error e)

/-- `Wal::remove_closed_segments()`: run the deletion loop over the closed
ids; only on success clear the closed-segment list (`clear_segments`). -/
def walRemoveClosedSegments (w : WalM) : WalM × Except ChipmunkErr Nat :=
  match removeSegLoop w.files w.closedSegments with
  | (fs', .ok n) => ({ w with files := fs', closedSegments := [] }, .ok n)
  | (fs', .error e) => ({ w with files := fs' }, .error e)

/-- The per-segment replay step of `Wal::restore`: read all frames of one
segment file (panicking — `none` — if any frame fails to decode) and then
re-append each entry through the normal `Wal::append` path. -/
def walRestoreSegment (w : WalM) (bs : Bytes) : Option WalM :=
  match readEntries bs with
  | none => none
  | some es => some (es.foldl (fun w e => (walAppend w e).2) w)

/-! ## The memtable (`src/memtable.rs`)

`BTreeMap<Bytes, Option<Bytes>>` is modelled as an association list sorted
strictly by the lexicographic byte order, with `none` as a tombstone. -/

/-- Lexicographic strict order on byte strings — the `Ord` instance of
`bytes::Bytes` by which `BTreeMap` keys are sorted. -/
def bytesLt (a b : Bytes) : Bool :=
  match a, b with
  | [], [] => false
  | [], _ :: _ => true
  | _ :: _, [] => false
  | x :: xs, y :: ys => if x < y then true else if y < x then false else bytesLt xs ys

theorem bytesLt_irrefl (a : Bytes) : bytesLt a a = false := by
  induction a with
  | nil => rfl
  | cons x xs ih => simp [bytesLt, ih]

theorem bytesLt_asymm {a b : Bytes} (h : bytesLt a b = true) :
    bytesLt b a = false := by
  induction a generalizing b with
  | nil =>
      cases b with
      | nil => exact absurd h (by simp [bytesLt])
      | cons y ys => simp [bytesLt]
  | cons x xs ih =>
      cases b with
      | nil => exact absurd h (by simp [bytesLt])
      | cons y ys =>
          simp only [bytesLt] at h ⊢
          rcases Nat.lt_trichotomy x y with hxy | hxy | hxy
          · simp [hxy, Nat.not_lt.mpr (le_of_lt hxy)]
          · subst hxy
            simp only [lt_irrefl, if_false] at h ⊢
            exact ih h
          · simp [hxy, Nat.not_lt.mpr (le_of_lt hxy)] at h

theorem bytesLt_ne {a b : Bytes} (h : bytesLt a b = true) : a ≠ b := by
  intro heq
  subst heq
  rw [bytesLt_irrefl] at h
  cases h

/-- A memtable tree: keys with live values (`some`) or tombstones (`none`). -/
abbrev KvTree := List (Bytes × Option Bytes)

/-- `BTreeMap::get`: `some (some v)` live hit, `some none` tombstone,
`none` absent. -/
def treeGet (t : KvTree) (k : Bytes) : Option (Option Bytes) :=
  match t with
  | [] => none
  | (k', v) :: rest => if k' = k then some v else treeGet rest k

/-- `BTreeMap::insert` keeping the strict key order: replace an existing
binding or insert at the ordered position. -/
def treeInsert (t : KvTree) (k : Bytes) (v : Option Bytes) : KvTree :=
  match t with
  | [] => [(k, v)]
  | (k', v') :: rest =>
    if bytesLt k k' then (k, v) :: (k', v') :: rest
    else if k = k' then (k, v) :: rest
    else (k', v') :: treeInsert rest k v

/-- The in-memory `Memtable` state (`id`, tree, `approximate_size`). -/
structure MemtableM where
  id : Nat
  tree : KvTree
  approxSize : Nat
deriving DecidableEq

/-- `Memtable::new(id, _)`. -/
def memNew (id : Nat) : MemtableM :=
  { id := id, tree := [], approxSize := 0 }

/-- `Memtable::insert`: upsert `key ↦ Some(value)` and add `value.len()` to
`approximate_size`. -/
def memInsert (m : MemtableM) (k v : Bytes) : MemtableM :=
  { m with approxSize := m.approxSize + v.length
           tree := treeInsert m.tree k (some v) }

/-- `Memtable::get`: **flattens** the tombstone case — both a tombstone and an
absent key come back as `none` (`Some(None) | None => None` in the source). -/
def memGet (m : MemtableM) (k : Bytes) : Option Bytes :=
  match treeGet m.tree k with
  | some (some v) => some v
  | some none => none
  | none => none

/-- `Memtable::delete`: upsert `key ↦ None` (a tombstone); the approximate
size is unchanged. -/
def memDelete (m : MemtableM) (k : Bytes) : MemtableM :=
  { m with tree := treeInsert m.tree k none }

/-- `Memtable::size()`. -/
def memSize (m : MemtableM) : Nat := m.approxSize

/-! ## The SSTable codec (`Memtable::flush` / `Memtable::load`)

`flush` serializes the tree with `bincode::serialize` and `load` reads it back
with `bincode::deserialize`.  The bincode v1 format for
`BTreeMap<Bytes, Option<Bytes>>` under the default options is: an 8-byte
little-endian entry count, then for each entry in key order the 8-byte
little-endian key length, the key bytes, a one-byte `Option` tag (`0 = None`,
`1 = Some`) and, for `Some`, the 8-byte little-endian value length followed by
the value bytes. -/

/-- bincode v1 serialization of one `(key, Option<value>)` entry. -/
def encodeTreeEntry : Bytes × Option Bytes → Bytes
  | (k, none) => toLE8 k.length ++ k ++ [0]
  | (k, some v) => toLE8 k.length ++ k ++ [1] ++ toLE8 v.length ++ v

/-- bincode v1 serialization of the whole tree, the bytes `Memtable::flush`
writes into `sstable-<id>`. -/
def encodeTree (t : KvTree) : Bytes :=
  toLE8 t.length ++ (t.map encodeTreeEntry).flatten

/-- bincode v1 deserialization of `n` entries, inserting each into a fresh
`BTreeMap` as `bincode::deserialize` does. -/
def decodeTreeEntries (n : Nat) (bs : Bytes) (acc : KvTree) : Option (KvTree × Bytes) :=
  match n with
  | 0 => some (acc, bs)
  | n + 1 =>
    (readN 8 bs).bind fun (ksB, bs1) =>
      (readN (fromLEBytes ksB) bs1).bind fun (key, bs2) =>
        match bs2 with
        | 0 :: bs3 => decodeTreeEntries n bs3 (treeInsert acc key none)
        | 1 :: bs3 =>
          (readN 8 bs3).bind fun (vsB, bs4) =>
            (readN (fromLEBytes vsB) bs4).bind fun (value, bs5) =>
              decodeTreeEntries n bs5 (treeInsert acc key (some value))
        | _ => none

/-- `Memtable::load`: deserialize a tree from the bytes of an SSTable file
(`none` models a `bincode` error, surfaced as a panic by `load`'s `unwrap`). -/
def decodeTree (bs : Bytes) : Option KvTree :=
  (readN 8 bs).bind fun (nB, bs1) =>
    (decodeTreeEntries (fromLEBytes nB) bs1 []).bind fun (t, _) => some t

/-- `Memtable::flush(dir)`: serialize the tree, write it to
`sstable-<id>`, empty the in-memory tree, zero `approximate_size` and advance
`id`.  Returns the new memtable state together with the id and contents of the
file written. -/
def memFlush (m : MemtableM) : MemtableM × Nat × Bytes :=
  ({ id := m.id + 1, tree := [], approxSize := 0 }, m.id, encodeTree m.tree)

/-! ## The LSM coordinator (`src/lsm.rs`)

The working directory's `sstable-<id>` and `l2-<id>` files are modelled at the
level of their decoded contents (the byte-level `flush`/`load` codec is proven
to round-trip separately), as association lists from file id to content.  The
Bloom filter is modelled as the exact set of keys inserted into it; this is
sound for every use below because `bloomfx` guarantees no false negatives and
each `check` examined here is on a key previously inserted. -/

/-- Generic association-list lookup for files in the working directory. -/
def assocLookup {α : Type} (l : List (Nat × α)) (id : Nat) : Option α :=
  match l with
  | [] => none
  | (i, c) :: rest => if i = id then some c else assocLookup rest id

/-- `std::fs::write`: create or overwrite a file. -/
def assocSet {α : Type} (l : List (Nat × α)) (id : Nat) (v : α) : List (Nat × α) :=
  match l with
  | [] => [(id, v)]
  | (i, c) :: rest => if i = id then (i, v) :: rest else (i, c) :: assocSet rest id v

/-- `std::fs::remove_file(...).expect(..)` on a file assumed present. -/
def assocRemove {α : Type} (l : List (Nat × α)) (id : Nat) : List (Nat × α) :=
  l.filter (fun p => p.1 ≠ id)

/-- The `Lsm` state from `src/lsm.rs` (with its `WalConfig` /
`MemtableConfig` thresholds). -/
structure LsmM where
  wal : WalM
  walMaxSize : Nat
  memtable : MemtableM
  memtableMaxSize : Nat
  sstables : List Nat
  ssDisk : List (Nat × KvTree)
  bloom : List Bytes
  l2Id : Nat
  l2Files : List Nat
  l2Disk : List (Nat × List (Bytes × Bytes))
deriving DecidableEq

/-- `Lsm::new(wal_config, memtable_config)` over an initial log directory. -/
def lsmNew (fs : SegFiles) (walId walMaxSize bufferSize memtableId memtableMaxSize : Nat) :
    LsmM :=
  { wal := walNew fs walId walMaxSize bufferSize
    walMaxSize := walMaxSize
    memtable := memNew memtableId
    memtableMaxSize := memtableMaxSize
    sstables := []
    ssDisk := []
    bloom := []
    l2Id := 0
    l2Files := []
    l2Disk := [] }

/-- `Lsm::rotate_memtable()`: record the active memtable's id in the L1 list,
then flush it (writing `sstable-<id>` and advancing the id). -/
def lsmRotateMemtable (s : LsmM) : LsmM :=
  { s with sstables := s.sstables ++ [s.memtable.id]
           ssDisk := assocSet s.ssDisk s.memtable.id s.memtable.tree
           memtable := (memFlush s.memtable).1 }

/-- `Lsm::remove_closed_segments()` (which re-implements the deletion loop of
`Wal::remove_closed_segments` over the working directory): delete each closed
segment file, failing with `SegmentDelete` at the first missing file, and only
clear the closed list when every deletion succeeded. -/
def lsmRemoveClosedSegments (s : LsmM) : LsmM × Option ChipmunkErr :=
  match removeSegLoop s.wal.files s.wal.closedSegments with
  | (fs', .ok _) =>
      ({ s with wal := { s.wal with files := fs', closedSegments := [] } }, none)
  | (fs', .error e) => ({ s with wal := { s.wal with files := fs' } }, some e)

/-- `FxHashMap::insert` viewed as an association-list update (replace the
binding if the key is present, otherwise add it). -/
def l2MapInsert (m : List (Bytes × Bytes)) (k v : Bytes) : List (Bytes × Bytes) :=
  match m with
  | [] => [(k, v)]
  | (k', v') :: rest =>
    if k' = k then (k, v) :: rest else (k', v') :: l2MapInsert rest k v

/-- `Lsm::force_compaction()`: walk the L1 SSTable ids in list order (oldest
first), merge each table's **live** entries into the accumulating L2 map
(tombstones are merely skipped), delete each consumed `sstable-<id>`, clear
the L1 list, then write the map as `l2-<l2_id>` and record the new id. -/
def lsmForceCompaction (s : LsmM) : LsmM :=
  let step := fun (acc : List (Bytes × Bytes) × List (Nat × KvTree)) (id : Nat) =>
    let tree := (assocLookup acc.2 id).getD []
    let l2tree := tree.foldl
      (fun m (kv : Bytes × Option Bytes) =>
        match kv.2 with
        | some v => l2MapInsert m kv.1 v
        | none => m)
      acc.1
    (l2tree, assocRemove acc.2 id)
  let res := s.sstables.foldl step ([], s.ssDisk)
  { s with sstables := []
           ssDisk := res.2
           l2Id := s.l2Id + 1
           l2Disk := s.l2Disk ++ [(s.l2Id, res.1)]
           l2Files := s.l2Files ++ [s.l2Id] }

/-- The compaction trigger at the end of `Lsm::insert`:
`if l2_files.len() > 3 { force_compaction() }`. -/
def lsmMaybeCompact (s : LsmM) : LsmM :=
  if 3 < s.l2Files.length then lsmForceCompaction s else s

/-- `Lsm::insert(key, value)`: WAL append (rotating the WAL at
`wal.size() >= max_size`), Bloom insert, memtable insert, memtable rotation
plus closed-segment removal at `memtable.size() > max_size`, then the
compaction trigger. -/
def lsmInsert (s : LsmM) (k v : Bytes) : LsmM × Option ChipmunkErr :=
  let wal1 := (walAppend s.wal (.put k v)).2
  let wal2 := if s.walMaxSize ≤ walSize wal1 then walRotate wal1 else wal1
  let s1 := { s with wal := wal2
                     bloom := k :: s.bloom
                     memtable := memInsert s.memtable k v }
  if s1.memtableMaxSize < memSize s1.memtable then
    match lsmRemoveClosedSegments (lsmRotateMemtable s1) with
    | (s2, some e) => (s2, some e)
    | (s2, none) => (lsmMaybeCompact s2, none)
  else (lsmMaybeCompact s1, none)

/-- `Lsm::delete(key)`: WAL append of a delete entry, then a memtable
tombstone.  The Bloom filter is not touched and no rotation is triggered. -/
def lsmDelete (s : LsmM) (k : Bytes) : LsmM × Option ChipmunkErr :=
  ({ s with wal := (walAppend s.wal (.delete k)).2
            memtable := memDelete s.memtable k }, none)

/-- The L1 search loop of `Lsm::get`: load each `sstable-<id>` from newest to
oldest; a live hit returns, while **both** a tombstone and a miss fall through
to the next older table (`None | Some(None) => continue` in the source). -/
def searchL1 (ids : List Nat) (disk : List (Nat × KvTree)) (k : Bytes) :
    Option Bytes :=
  match ids with
  | [] => none
  | id :: rest =>
    match treeGet ((assocLookup disk id).getD []) k with
    | some (some v) => some v
    | some none => searchL1 rest disk k
    | none => searchL1 rest disk k

/-- `Lsm::get(key)`: Bloom check, then the active memtable (through the
tombstone-flattening `Memtable::get`), then the L1 SSTables newest to oldest.
L2 files are never consulted. -/
def lsmGet (s : LsmM) (k : Bytes) : Option Bytes :=
  if s.bloom.contains k then
    match memGet s.memtable k with
    | some v => some v
    | none => searchL1 s.sstables.reverse s.ssDisk k
  else none

/-! ## Spec-side definitions used to state corrected claims -/

instance {ε α : Type} [DecidableEq ε] [DecidableEq α] : DecidableEq (Except ε α) :=
  fun a b =>
    match a, b with
    | .ok x, .ok y =>
      if h : x = y then .isTrue (by rw [h]) else
        .isFalse (by intro hh; injection hh; exact h (by assumption))
    | .ok _, .error _ => .isFalse (by intro hh; cases hh)
    | .error _, .ok _ => .isFalse (by intro hh; cases hh)
    | .error x, .error y =>
      if h : x = y then .isTrue (by rw [h]) else
        .isFalse (by intro hh; injection hh; exact h (by assumption))

/-- 8-byte big-endian encoding, as the specification's claimed framing uses. -/
def toBE8 (n : Nat) : Bytes := (toLEBytes 8 n).reverse

/-- The framing the specification claims for `Wal::append` (claim C4), stated
from the spec's words: 1-byte marker, 8-byte **big-endian** key length, key
bytes, (insert only) 8-byte big-endian value length and value bytes, and a
final 1-byte `\n` (byte `10`) terminator. -/
def specEncodeWalEntry : WalEntry → Bytes
  | .put k v => [0] ++ toBE8 k.length ++ k ++ toBE8 v.length ++ v ++ [10]
  | .delete k => [1] ++ toBE8 k.length ++ k ++ [10]

/-- Well-formedness of a memtable tree as produced by `BTreeMap` in the Rust
code: keys strictly ascending in the lexicographic byte order, and every
count and length a `usize`/`u64` value, hence below `2 ^ 64`. -/
def treeWf (t : KvTree) : Prop :=
  t.Pairwise (fun p q => bytesLt p.1 q.1 = true) ∧
  t.length < 2 ^ 64 ∧
  ∀ p ∈ t, p.1.length < 2 ^ 64 ∧ ∀ v, p.2 = some v → v.length < 2 ^ 64

instance : DecidablePred treeWf := by
  intro t
  unfold treeWf
  infer_instance

/-! ## Helper lemmas -/

theorem fsLookup_fsAppend (fs : SegFiles) (id : Nat) (bytes : Bytes) :
    fsLookup (fsAppend fs id bytes) id = (fsLookup fs id).map (· ++ bytes) := by
  induction fs with
  | nil => rfl
  | cons p rest ih =>
      obtain ⟨i, c⟩ := p
      by_cases h : i = id <;> simp [fsAppend, fsLookup, h, ih]

theorem fsLookup_append_of_none {fs : SegFiles} {id : Nat}
    (h : fsLookup fs id = none) (c : Bytes) :
    fsLookup (fs ++ [(id, c)]) id = some c := by
  induction fs with
  | nil => simp [fsLookup]
  | cons p rest ih =>
      obtain ⟨i, c'⟩ := p
      simp only [fsLookup] at h
      by_cases hi : i = id
      · rw [hi] at h
        simp at h
      · simp only [List.cons_append, fsLookup, if_neg hi]
        exact ih (by simpa [hi] using h)

theorem maybeFlushBuffer_currentSize (w : WalM) (force : Bool) :
    (maybeFlushBuffer w force).currentSize = w.currentSize := by
  unfold maybeFlushBuffer
  split <;> rfl

/-! ## Claim C10 — `Wal::append` return value and size accounting -/

/-- C10: for every entry, `Wal::append` returns exactly the length of the
entry's encoding — `17 + key length + value length` for an insert and
`9 + key length` for a delete — and `current_size` (observable via `size()`)
grows by exactly that amount, whether or not the bytes were flushed out of the
in-memory buffer. -/
theorem claim_c10_append_size (w : WalM) (e : WalEntry) :
    (walAppend w e).1 = (encodeWalEntry e).length ∧
    (walAppend w e).1 = (match e with
                         | .put k v => 17 + (k.length + v.length)
                         | .delete k => 9 + k.length) ∧
    walSize (walAppend w e).2 = walSize w + (walAppend w e).1 := by
  refine ⟨?_, ?_, ?_⟩ <;> cases e <;>
    simp [walAppend, walAppendSize, encodeWalEntry, walSize,
      maybeFlushBuffer_currentSize, toLE8, toLEBytes_length] <;>
    omega

/-! ## Claim C4 — the on-disk framing of `Wal::append` -/

/-- C4 (counterexample): the bytes `Wal::append` produces for
`Insert{key="a", value="b"}` are *not* the framing the claim states
(big-endian length fields and a trailing `\n`): the code writes the lengths
little-endian and writes no terminator byte. -/
theorem claim_c4_counterexample :
    encodeWalEntry (.put [97] [98]) ≠ specEncodeWalEntry (.put [97] [98]) := by
  decide

/-- C4 (amended): `Wal::append` serializes an entry onto the active segment's
byte stream (segment file contents followed by the unflushed buffer) as a
1-byte marker (`0x00` insert, `0x01` delete), an 8-byte **little-endian** key
length, the key bytes and, for inserts, an 8-byte little-endian value length
and the value bytes — with **no** terminator byte. -/
theorem claim_c4_amended (w : WalM) (e : WalEntry)
    (h : (fsLookup w.files w.activeId).isSome) :
    (fsLookup (walAppend w e).2.files w.activeId).getD [] ++
        (walAppend w e).2.buffer =
      ((fsLookup w.files w.activeId).getD [] ++ w.buffer) ++
        (match e with
         | .put k v => 0 :: (toLE8 k.length ++ k ++ (toLE8 v.length ++ v))
         | .delete k => 1 :: (toLE8 k.length ++ k)) := by
  obtain ⟨c, hc⟩ := Option.isSome_iff_exists.mp h
  unfold walAppend maybeFlushBuffer
  cases e <;> dsimp only <;> split <;> simp_all [fsLookup_fsAppend, encodeWalEntry]

/-! ## Claim C7 — `Segment::try_new` open semantics -/

/-- C7 (counterexample): `Segment::try_new` opens with
`OpenOptions::new().create(true).append(true)`, so opening id `0` in a
directory where `0.wal` already exists does **not** fail with `SegmentOpen`,
contradicting the claimed exclusive-create semantics; and a freshly created
segment file is empty — it does not begin with the ASCII header `ch1\n`
(bytes `[99, 104, 49, 10]`). -/
theorem claim_c7_counterexample :
    tryNewSegment [(0, [])] 0 ≠ Except.error ChipmunkErr.segmentOpen ∧
    tryNewSegment [] 0 = Except.ok [(0, [])] := by
  decide

/-- C7 (amended): opening a segment with id `id` always succeeds: the file
`<id>.wal` is opened in append mode, created **empty** (no header) when
absent and left untouched when it already exists. -/
theorem claim_c7_amended (fs : SegFiles) (id : Nat) :
    ∃ fs', tryNewSegment fs id = .ok fs' ∧
      fsLookup fs' id = some ((fsLookup fs id).getD []) := by
  unfold tryNewSegment
  cases h : fsLookup fs id with
  | some c =>
      refine ⟨fs, rfl, ?_⟩
      simp [h]
  | none =>
      refine ⟨fs ++ [(id, [])], rfl, ?_⟩
      simp [fsLookup_append_of_none h]

/-! ## Claim C3 — `Wal::rotate` does not drain the append buffer -/

/-- C3: the claim (and `rotate`'s own doc comment, "This flushes all
operations to the current file") says rotation first writes all buffered
bytes to the closing segment.  The code only fsyncs: after appending one
19-byte entry (which stays in the 8 KiB buffer) and rotating, the entry's
bytes are still in the in-memory buffer, segment `0.wal` is empty on disk,
and segment 0 is already recorded as closed — the buffered bytes will later
be flushed into segment `1.wal` instead. -/
theorem claim_c3_divergence :
    (walRotate (walAppend (walNew [] 0 1000000 8192) (.put [97] [98])).2).buffer =
        encodeWalEntry (.put [97] [98]) ∧
    fsLookup (walRotate (walAppend (walNew [] 0 1000000 8192)
        (.put [97] [98])).2).files 0 = some [] ∧
    (walRotate (walAppend (walNew [] 0 1000000 8192)
        (.put [97] [98])).2).closedSegments = [0] := by
  decide

/-! ## Claim C1 — delete / get tombstone semantics of the coordinator -/

/-- The state reached from an empty store by `insert("foo","bar")`,
`rotate_memtable()`, `delete("foo")`. -/
def c1State : LsmM :=
  (lsmDelete (lsmRotateMemtable
    ((lsmInsert (lsmNew [] 0 1000000 8192 0 1000000)
      [102, 111, 111] [98, 97, 114]).1))
    [102, 111, 111]).1

/-- C1: the claim says that after `delete(k)` a `get(k)` is not-found until a
later insert, a tombstone in the active memtable short-circuiting the search.
The code violates this: `Memtable::get` flattens a tombstone into `None`, so
`Lsm::get` falls through to the L1 SSTables and returns a stale value.
Concretely, after `insert("foo","bar")`, `rotate_memtable()`, `delete("foo")`
— the active memtable holding the tombstone for `"foo"` — `get("foo")`
returns `"bar"` instead of not-found. -/
theorem claim_c1_divergence :
    treeGet c1State.memtable.tree [102, 111, 111] = some none ∧
    lsmGet c1State [102, 111, 111] = some [98, 97, 114] := by
  decide

/-! ## Claim C2 — `force_compaction` reachability and tombstone dropping -/

/-- The state reached from an empty store with `memtable.max_size = 1` by
`insert("a","vv")` (rotates the memtable into `sstable-0`),
`delete("a")`, `insert("b","ww")` (rotates `{a ↦ tombstone, b ↦ "ww"}` into
`sstable-1`). -/
def c2Pre : LsmM :=
  (lsmInsert ((lsmDelete ((lsmInsert (lsmNew [] 0 1000000 8192 0 1)
    [97] [118, 118]).1) [97]).1) [98] [119, 119]).1

/-- C2: the claim fails on both conjuncts.  Before `force_compaction` the key
`"b"` is reachable via `get`; afterwards it is not (the compacted value lives
only in the L2 file, which `Lsm::get` never consults).  And the key `"a"`,
whose most recent record across the consumed L1 SSTables is the tombstone in
`sstable-1`, is *present* in the newly produced L2 file with its stale value
`"vv"` — compaction merely skips tombstones instead of letting them cancel
older live values. -/
theorem claim_c2_divergence :
    lsmGet c2Pre [98] = some [119, 119] ∧
    treeGet ((assocLookup c2Pre.ssDisk 1).getD []) [97] = some none ∧
    lsmGet (lsmForceCompaction c2Pre) [98] = none ∧
    assocLookup (lsmForceCompaction c2Pre).l2Disk 0 =
      some [([97], [118, 118]), ([98], [119, 119])] := by
  decide

/-- Witness for C4's amended claim at `Insert{key="a", value="b"}` on a fresh
WAL. -/
theorem claim_c4_amended_witness :
    (fsLookup (walNew [] 0 1000000 8192).files
        (walNew [] 0 1000000 8192).activeId).isSome ∧
    (fsLookup (walAppend (walNew [] 0 1000000 8192) (.put [97] [98])).2.files
        (walNew [] 0 1000000 8192).activeId).getD [] ++
      (walAppend (walNew [] 0 1000000 8192) (.put [97] [98])).2.buffer =
      ((fsLookup (walNew [] 0 1000000 8192).files
          (walNew [] 0 1000000 8192).activeId).getD []
        ++ (walNew [] 0 1000000 8192).buffer) ++
        (match (.put [97] [98] : WalEntry) with
         | .put k v => 0 :: (toLE8 k.length ++ k ++ (toLE8 v.length ++ v))
         | .delete k => 1 :: (toLE8 k.length ++ k)) :=
  ⟨by decide, claim_c4_amended (walNew [] 0 1000000 8192) (.put [97] [98]) (by decide)⟩

/-! ## Claim C5 — codec round trip and clean end-of-stream -/

/-- C5: for every sequence of well-formed entries (any key and value bytes,
empty included), decoding the concatenation of their encodings through the
restore read loop recovers exactly those entries — each `decode(encode(e))`
yields `e`, and decoding stops cleanly at the end of the stream between
entries. -/
theorem claim_c5_roundtrip (es : List WalEntry) (h : ∀ e ∈ es, e.wf) :
    readEntries (encodeWalEntries es) = some es := by
  have := readEntries_encode_append es [] h
  rw [List.append_nil] at this
  rw [this, readEntries_nil]
  simp

/-- Witness for C5 on `[Insert{"a" ↦ "b"}, Delete{""}, Insert{"" ↦ ""}]`
(exercising empty keys and values). -/
theorem claim_c5_roundtrip_witness :
    (∀ e ∈ ([.put [97] [98], .delete [], .put [] []] : List WalEntry), e.wf) ∧
    readEntries (encodeWalEntries [.put [97] [98], .delete [], .put [] []]) =
      some [.put [97] [98], .delete [], .put [] []] :=
  ⟨by decide, claim_c5_roundtrip [.put [97] [98], .delete [], .put [] []] (by decide)⟩

/-! ## Claim C8 — decode failures during restore are fatal, not skipped -/

/-- C8 (counterexample): the claim says a frame that fails to decode during
`Wal::restore` is skipped with a warning and restore returns successfully.
Restoring a segment whose body is the single unknown marker byte `2` instead
hits `read_entry`'s `panic!("Invalid marker")` — modelled as `none` — rather
than returning the successfully-restored WAL. -/
theorem claim_c8_counterexample :
    walRestoreSegment (walNew [] 0 1000000 8192) [2] = none := by
  decide

/-- C8 (amended): any frame that fails to decode — an unknown marker or a
truncated frame, during restore just as elsewhere — is fatal: the restore
read loop panics instead of skipping the frame, however many well-formed
entries precede it.  Only a clean end-of-stream at an entry boundary
terminates the scan successfully. -/
theorem claim_c8_amended (w : WalM) (es : List WalEntry) (m : Nat)
    (tail : Bytes) (h : ∀ e ∈ es, e.wf)
    (hbad : readEntryAfterMarker m tail = none) :
    walRestoreSegment w (encodeWalEntries es ++ (m :: tail)) = none := by
  unfold walRestoreSegment
  rw [readEntries_encode_append es (m :: tail) h, readEntries_cons_none hbad]
  rfl

/-- Witness for C8's amended claim: one good entry followed by the invalid
marker byte `2`. -/
theorem claim_c8_amended_witness :
    (∀ e ∈ ([.put [97] [98]] : List WalEntry), e.wf) ∧
    readEntryAfterMarker 2 [] = none ∧
    walRestoreSegment (walNew [] 0 1000000 8192)
      (encodeWalEntries [.put [97] [98]] ++ (2 :: [])) = none :=
  ⟨by decide, by decide,
    claim_c8_amended (walNew [] 0 1000000 8192) [.put [97] [98]] 2 []
      (by decide) (by decide)⟩

/-! ## Claim C9 — `Wal::remove_closed_segments` is not atomic on error -/

theorem fsLookup_filter_ne (fs : SegFiles) (a x : Nat) :
    fsLookup (fs.filter (fun p => p.1 ≠ a)) x =
      if x = a then none else fsLookup fs x := by
  induction fs with
  | nil => by_cases hxa : x = a <;> simp [fsLookup, hxa]
  | cons p rest ih =>
      obtain ⟨i, c⟩ := p
      by_cases hia : i = a <;> by_cases hix : i = x <;>
        by_cases hxa : x = a <;>
        simp_all [fsLookup, List.filter_cons]

theorem removeSegLoop_cons_none {fs : SegFiles} {c : Nat} (rest : List Nat)
    (h : fsLookup fs c = none) :
    removeSegLoop fs (c :: rest) = (fs, .error .segmentDelete) := by
  unfold removeSegLoop fsRemove
  rw [h]

theorem removeSegLoop_cons_some {fs : SegFiles} {s : Nat} {c : Bytes}
    (rest : List Nat) (h : fsLookup fs s = some c) :
    removeSegLoop fs (s :: rest) =
      (match removeSegLoop (fs.filter (fun p => p.1 ≠ s)) rest with
       | (fs'', .ok n) => (fs'', .ok (n + 1))
       | (fs'', .error e) => (fs'', .error e)) := by
  conv_lhs => rw [removeSegLoop]
  rw [fsRemove, h]

theorem removeSegLoop_none_mono (ids : List Nat) :
    ∀ (fs : SegFiles) (x : Nat), fsLookup fs x = none →
      fsLookup (removeSegLoop fs ids).1 x = none := by
  induction ids with
  | nil => intro fs x h; exact h
  | cons s rest ih =>
      intro fs x h
      cases hs : fsLookup fs s with
      | none =>
          rw [removeSegLoop_cons_none rest hs]
          exact h
      | some c =>
          have h' : fsLookup (fs.filter (fun p => p.1 ≠ s)) x = none := by
            rw [fsLookup_filter_ne]
            split <;> simp [h]
          have hmono := ih (fs.filter (fun p => p.1 ≠ s)) x h'
          rw [removeSegLoop_cons_some rest hs]
          rcases hrec : removeSegLoop (fs.filter (fun p => p.1 ≠ s)) rest
            with ⟨fs'', r⟩
          rw [hrec] at hmono
          cases r <;> exact hmono

theorem removeSegLoop_fail (l1 : List Nat) :
    ∀ (fs : SegFiles) (b : Nat) (l2 : List Nat),
      (∀ a ∈ l1, (fsLookup fs a).isSome) → l1.Nodup →
      fsLookup fs b = none →
      (removeSegLoop fs (l1 ++ b :: l2)).2 = .error .segmentDelete ∧
      (∀ a ∈ l1, fsLookup (removeSegLoop fs (l1 ++ b :: l2)).1 a = none) ∧
      fsLookup (removeSegLoop fs (l1 ++ b :: l2)).1 b = none := by
  induction l1 with
  | nil =>
      intro fs b l2 _ _ hb
      rw [List.nil_append, removeSegLoop_cons_none l2 hb]
      exact ⟨rfl, by simp, hb⟩
  | cons a l1 ih =>
      intro fs b l2 hl1 hnodup hb
      obtain ⟨c, hc⟩ := Option.isSome_iff_exists.mp (hl1 a (by simp))
      have hl1' : ∀ x ∈ l1, (fsLookup (fs.filter (fun p => p.1 ≠ a)) x).isSome := by
        intro x hx
        rw [fsLookup_filter_ne]
        have hxa : x ≠ a := by
          intro hxa
          subst hxa
          exact (List.nodup_cons.mp hnodup).1 hx
        rw [if_neg hxa]
        exact hl1 x (by simp [hx])
      have hb' : fsLookup (fs.filter (fun p => p.1 ≠ a)) b = none := by
        rw [fsLookup_filter_ne]
        split <;> simp [hb]
      have ha' : fsLookup (fs.filter (fun p => p.1 ≠ a)) a = none := by
        rw [fsLookup_filter_ne]
        simp
      obtain ⟨ih1, ih2, ih3⟩ :=
        ih (fs.filter (fun p => p.1 ≠ a)) b l2 hl1' (List.nodup_cons.mp hnodup).2 hb'
      have hamono := removeSegLoop_none_mono (l1 ++ b :: l2)
        (fs.filter (fun p => p.1 ≠ a)) a ha'
      rw [List.cons_append, removeSegLoop_cons_some (l1 ++ b :: l2) hc]
      rcases hrec : removeSegLoop (fs.filter (fun p => p.1 ≠ a)) (l1 ++ b :: l2)
        with ⟨fs'', r⟩
      rw [hrec] at ih1 ih2 ih3 hamono
      cases r with
      | ok n => simp at ih1
      | error e =>
          have he : e = .segmentDelete := by simpa using ih1
          subst he
          refine ⟨rfl, ?_, by simpa using ih3⟩
          intro x hx
          rcases List.mem_cons.mp hx with hxa | hxl1
          · subst hxa
            simpa using hamono
          · simpa using ih2 x hxl1

/-- C9: when some closed segment's file is missing, `remove_closed_segments`
(1) returns a `SegmentDelete` error, (2) after having already deleted the
files of the ids that preceded the failing one, while (3) `closed_segments`
still contains every id — including the ones whose files were just deleted —
so that (4) an immediate retry fails again, now attempting to remove an
already-deleted file. -/
theorem claim_c9_remove_not_atomic (w : WalM) (l1 l2 : List Nat) (b : Nat)
    (hclosed : w.closedSegments = l1 ++ b :: l2)
    (hl1 : ∀ a ∈ l1, (fsLookup w.files a).isSome)
    (hnodup : l1.Nodup)
    (hb : fsLookup w.files b = none) :
    (walRemoveClosedSegments w).2 = .error .segmentDelete ∧
    (walRemoveClosedSegments w).1.closedSegments = l1 ++ b :: l2 ∧
    (∀ a ∈ l1, fsLookup (walRemoveClosedSegments w).1.files a = none) ∧
    (walRemoveClosedSegments (walRemoveClosedSegments w).1).2 =
      .error .segmentDelete := by
  obtain ⟨h1, h2, h3⟩ := removeSegLoop_fail l1 w.files b l2 hl1 hnodup hb
  rcases hres : removeSegLoop w.files (l1 ++ b :: l2) with ⟨fs', r⟩
  rw [hres] at h1 h2 h3
  dsimp only at h1 h2 h3
  cases r with
  | ok n => cases h1
  | error e =>
      have he : e = .segmentDelete := by simpa using h1
      subst he
      have hw : walRemoveClosedSegments w =
          ({ w with files := fs' }, .error .segmentDelete) := by
        unfold walRemoveClosedSegments
        rw [hclosed, hres]
      have hretry : (walRemoveClosedSegments { w with files := fs' }).2 =
          .error .segmentDelete := by
        unfold walRemoveClosedSegments
        dsimp only
        rw [hclosed]
        cases l1 with
        | nil =>
            rw [List.nil_append, removeSegLoop_cons_none l2 h3]
        | cons a l1' =>
            rw [List.cons_append,
              removeSegLoop_cons_none (l1' ++ b :: l2) (h2 a (by simp))]
      rw [hw]
      exact ⟨rfl, hclosed, fun a ha => h2 a ha, hretry⟩

/-- The WAL state for the C9 witness: segment files `0.wal` and `1.wal`
exist, `2.wal` does not, and `closed_segments = [0, 1, 2]`. -/
def c9Wal : WalM :=
  { files := [(0, []), (1, [])]
    activeId := 3
    currentSize := 0
    maxSize := 1000000
    buffer := []
    bufferSize := 8192
    closedSegments := [0, 1, 2] }

/-- Witness for C9 at `c9Wal` with `l1 = [0, 1]`, `b = 2`. -/
theorem claim_c9_remove_not_atomic_witness :
    (c9Wal.closedSegments = [0, 1] ++ 2 :: []) ∧
    (∀ a ∈ [0, 1], (fsLookup c9Wal.files a).isSome) ∧
    ([0, 1] : List Nat).Nodup ∧
    fsLookup c9Wal.files 2 = none ∧
    ((walRemoveClosedSegments c9Wal).2 = .error .segmentDelete ∧
     (walRemoveClosedSegments c9Wal).1.closedSegments = [0, 1] ++ 2 :: [] ∧
     (∀ a ∈ [0, 1], fsLookup (walRemoveClosedSegments c9Wal).1.files a = none) ∧
     (walRemoveClosedSegments (walRemoveClosedSegments c9Wal).1).2 =
       .error .segmentDelete) :=
  ⟨by decide, by decide, by decide, by decide,
    claim_c9_remove_not_atomic c9Wal [0, 1] [] 2
      (by decide) (by decide) (by decide) (by decide)⟩

/-! ## Claim C6 — SSTable round trip (`load ∘ flush = id`) -/

theorem treeInsert_append (acc : KvTree) (k : Bytes) (v : Option Bytes)
    (h : ∀ p ∈ acc, bytesLt p.1 k = true) :
    treeInsert acc k v = acc ++ [(k, v)] := by
  induction acc with
  | nil => rfl
  | cons p rest ih =>
      obtain ⟨k', v'⟩ := p
      have hk' : bytesLt k' k = true := h (k', v') (by simp)
      have h1 : bytesLt k k' = false := bytesLt_asymm hk'
      have h2 : ¬(k = k') := fun heq => (bytesLt_ne hk') heq.symm
      simp only [treeInsert, h1, if_neg h2, Bool.false_eq_true, if_false,
        List.cons_append, List.cons.injEq, true_and]
      exact ih (fun q hq => h q (by simp [hq]))

theorem foldl_treeInsert (t : KvTree) :
    ∀ acc : KvTree,
      (∀ p ∈ acc, ∀ q ∈ t, bytesLt p.1 q.1 = true) →
      t.Pairwise (fun p q => bytesLt p.1 q.1 = true) →
      t.foldl (fun a p => treeInsert a p.1 p.2) acc = acc ++ t := by
  induction t with
  | nil => intro acc _ _; simp
  | cons p t ih =>
      intro acc hlt hpair
      obtain ⟨k, v⟩ := p
      rw [List.foldl_cons]
      have hins : treeInsert acc k v = acc ++ [(k, v)] :=
        treeInsert_append acc k v (fun q hq => hlt q hq (k, v) (by simp))
      rw [hins, ih (acc ++ [(k, v)]) ?_ (List.Pairwise.of_cons hpair)]
      · simp
      · intro q hq r hr
        rcases List.mem_append.mp hq with hq' | hq'
        · exact hlt q hq' r (by simp [hr])
        · have : q = (k, v) := by simpa using hq'
          subst this
          exact (List.pairwise_cons.mp hpair).1 r hr

theorem decodeTreeEntries_encode (t : KvTree) :
    ∀ (acc : KvTree) (rest : Bytes),
      (∀ p ∈ t, p.1.length < 2 ^ 64 ∧ ∀ v, p.2 = some v → v.length < 2 ^ 64) →
      decodeTreeEntries t.length ((t.map encodeTreeEntry).flatten ++ rest) acc =
        some (t.foldl (fun a p => treeInsert a p.1 p.2) acc, rest) := by
  induction t with
  | nil => intro acc rest _; simp [decodeTreeEntries]
  | cons p t ih =>
      intro acc rest hwf
      obtain ⟨k, v⟩ := p
      obtain ⟨hk, hv⟩ := hwf (k, v) (by simp)
      have hwf' : ∀ p ∈ t, p.1.length < 2 ^ 64 ∧
          ∀ v, p.2 = some v → v.length < 2 ^ 64 :=
        fun p hp => hwf p (by simp [hp])
      cases v with
      | none =>
          have hform : ((((k, none) :: t).map encodeTreeEntry).flatten ++ rest) =
              toLE8 k.length ++ (k ++ (0 :: ((t.map encodeTreeEntry).flatten ++ rest))) := by
            simp [encodeTreeEntry]
          rw [List.length_cons, hform]
          simp only [decodeTreeEntries, readN_toLE8, Option.some_bind]
          rw [fromLEBytes_toLE8 _ hk, readN_append]
          simp only [Option.some_bind]
          rw [ih (treeInsert acc k none) rest hwf']
          rfl
      | some vv =>
          have hvv : vv.length < 2 ^ 64 := hv vv rfl
          have hform : ((((k, some vv) :: t).map encodeTreeEntry).flatten ++ rest) =
              toLE8 k.length ++ (k ++ (1 :: (toLE8 vv.length ++
                (vv ++ ((t.map encodeTreeEntry).flatten ++ rest))))) := by
            simp [encodeTreeEntry]
          rw [List.length_cons, hform]
          simp only [decodeTreeEntries, readN_toLE8, Option.some_bind]
          rw [fromLEBytes_toLE8 _ hk, readN_append]
          simp only [Option.some_bind]
          rw [readN_toLE8]
          simp only [Option.some_bind]
          rw [fromLEBytes_toLE8 _ hvv, readN_append]
          simp only [Option.some_bind]
          rw [ih (treeInsert acc k (some vv)) rest hwf']
          rfl

/-- C6: for every well-formed memtable tree `T` — keys strictly ascending as
`BTreeMap` maintains them, all counts and lengths `usize`-sized, tombstones
included — deserializing the bytes `Memtable::flush` writes to the SSTable
file recovers exactly `T`: `load ∘ flush` is the identity on the tree and
tombstones are preserved. -/
theorem claim_c6_roundtrip (m : MemtableM) (h : treeWf m.tree) :
    decodeTree ((memFlush m).2.2) = some m.tree := by
  obtain ⟨hpair, hcount, hlen⟩ := h
  obtain ⟨mid, t, msize⟩ := m
  show decodeTree (encodeTree t) = some t
  unfold decodeTree encodeTree
  rw [readN_toLE8]
  simp only [Option.some_bind]
  rw [fromLEBytes_toLE8 _ hcount]
  have hdec := decodeTreeEntries_encode t [] [] hlen
  rw [List.append_nil] at hdec
  rw [hdec]
  simp only [Option.some_bind]
  rw [foldl_treeInsert t [] (by simp) hpair]
  rw [List.nil_append]

/-- The two-entry tree `{"a" ↦ "xy", "b" ↦ tombstone}` for the C6 witness. -/
def c6Tree : KvTree := [([97], some [120, 121]), ([98], none)]

/-- Witness for C6 on `c6Tree`. -/
theorem claim_c6_roundtrip_witness :
    treeWf c6Tree ∧
    decodeTree ((memFlush ⟨0, c6Tree, 0⟩).2.2) = some c6Tree :=
  ⟨by decide, claim_c6_roundtrip ⟨0, c6Tree, 0⟩ (by decide)⟩
